import Mathlib

/-!
Verification development for the minimum-cost covering solver of
`planilha_processor.py` (repository `financeiro-droid/code-ai-backend`).

The solver works on lists of `(value, index)` entries with rational values
(the Python floats are modelled as exact rationals; all arithmetic in the
source is plain `+`, `*`, comparisons, so the idealisation is the usual
one).  The IEEE `float("inf")` sentinel used by `_mitm_min_cover` for "no
cover found" is modelled by `none : Option ℚ`: the only operations the
source applies to it are comparisons with finite sums (always `inf > s`)
and the `inf > inf` comparison in the entry-ceiling check (false), and the
model mirrors exactly that behaviour.
-/

set_option maxRecDepth 1000000

namespace PlanilhaProcessor

/-- A solver state: an achieved sum together with the list of chosen entry
indices, mirroring the `(sum, idxs)` pairs of the source. -/
abbrev St : Type := ℚ × List ℕ

/-- Result of a solver: achieved sum (`none` models the `float("inf")`
sentinel of `_mitm_min_cover`) and chosen indices. -/
abbrev Res : Type := Option ℚ × List ℕ

/-- Sum of the values of a list of `(value, index)` entries. -/
def sumVals (c : List (ℚ × ℕ)) : ℚ := (c.map Prod.fst).sum

/-- Comparison `s < best` against the running best sum, where `none` is the
infinity sentinel (every rational is below it). -/
def ltBest (s : ℚ) : Option ℚ → Bool
  | none => true
  | some t => decide (s < t)

/-- Ordering of states by their sum, the key used by the sorts in the
source (`sums.sort(key=lambda x: x[0])` and `added.sort(...)`). -/
def stLE (a b : St) : Prop := a.1 ≤ b.1

instance : DecidableRel stLE := fun a b => inferInstanceAs (Decidable (a.1 ≤ b.1))

instance : IsTotal St stLE := ⟨fun a b => le_total a.1 b.1⟩

instance : IsTrans St stLE := ⟨fun _ _ _ => le_trans⟩

/-- Descending ordering on `(value, index)` entries, modelling the stable
descending sort `sorted(values, key=lambda x: -x[0])` in `_min_cover`. -/
def valGE (a b : ℚ × ℕ) : Prop := b.1 ≤ a.1

instance : DecidableRel valGE := fun a b => inferInstanceAs (Decidable (b.1 ≤ a.1))

instance : IsTotal (ℚ × ℕ) valGE := ⟨fun a b => le_total b.1 a.1⟩

instance : IsTrans (ℚ × ℕ) valGE := ⟨fun _ _ _ h1 h2 => le_trans h2 h1⟩

/-- Every `(subset sum, subset indices)` pair of `arr`, one per subset.
This is the enumeration computed by the `all_sums` helper of
`_mitm_min_cover` before its sort (the loops over
`itertools.combinations` visit every subset exactly once; only the
enumeration order differs, which the subsequent sort by sum absorbs). -/
def subsetPairs : List (ℚ × ℕ) → List St
  | [] => [(0, [])]
  | e :: rest =>
    subsetPairs rest ++ (subsetPairs rest).map fun p => (e.1 + p.1, e.2 :: p.2)

/-- The `all_sums` helper of `_mitm_min_cover`: every subset sum paired
with its indices, sorted ascending by sum. -/
def all_sums (arr : List (ℚ × ℕ)) : List St :=
  List.insertionSort stLE (subsetPairs arr)

/-- All subset sums of `arr` (with multiplicity), the domain of the
brute-force minimum the specification compares against. -/
def subsetSums (arr : List (ℚ × ℕ)) : List ℚ :=
  (subsetPairs arr).map Prod.fst

/-- Modelled from the spec: the brute-force reference value, the minimum
over all subsets of the subset sums that are at least `target`
(`none` when no subset reaches the target). -/
def bruteMin (arr : List (ℚ × ℕ)) (target : ℚ) : Option ℚ :=
  ((subsetSums arr).filter fun s => decide (target ≤ s)).min?

/-- One iteration of the main loop of `_mitm_min_cover`, processing the
left-half state `p`: if `need = target - p.1 ≤ 0` the left sum alone is a
candidate; otherwise the first right-half state with sum at least `need`
is looked up (`bisect_left` on the ascending right sums) and the combined
sum is a candidate when it reaches `target`; a candidate replaces the best
when strictly smaller. -/
def mitmStep (R : List St) (target : ℚ) (best : Res) (p : St) : Res :=
  if target - p.1 ≤ 0 then
    if ltBest p.1 best.1 then (some p.1, p.2) else best
  else
    match R.find? fun q => decide (target - p.1 ≤ q.1) with
    | none => best
    | some q =>
      if target ≤ p.1 + q.1 ∧ ltBest (p.1 + q.1) best.1 = true then
        (some (p.1 + q.1), p.2 ++ q.2)
      else best

/-- The meet-in-the-middle exact solver `_mitm_min_cover`: the entry list
is split at `n / 2`, all subset sums of both halves are enumerated and
sorted, and the best combination with sum at least `target` is returned
(`none` when none exists, modelling the `float("inf")` sentinel). -/
def mitm_min_cover (values : List (ℚ × ℕ)) (target : ℚ) : Res :=
  let L := all_sums (values.take (values.length / 2))
  let R := all_sums (values.drop (values.length / 2))
  L.foldl (mitmStep R target) (none, [])

/-- Candidate offered while processing left-half state `p` in
`_mitm_min_cover` (used only to state and prove the loop invariants). -/
def mitmCand (R : List St) (target : ℚ) (p : St) : Option St :=
  if target - p.1 ≤ 0 then some p
  else (R.find? fun q => decide (target - p.1 ≤ q.1)).map fun q =>
    (p.1 + q.1, p.2 ++ q.2)

/-- Adding the current entry to every frontier state, the
`added = [(s+v, ids+[idx]) for (s, ids) in states]` list of
`_fptas_min_cover`. -/
def addEntry (v : ℚ) (idx : ℕ) (states : List St) : List St :=
  states.map fun p => (p.1 + v, p.2 ++ [idx])

/-- The two-pointer ascending merge of the frontier with the added states
in `_fptas_min_cover`, before duplicate suppression.  The source emits, on
a tie, the element of the old frontier first; equivalently, before each
old-frontier element all strictly smaller pending added elements are
emitted, which is the formulation used here (structural recursion on the
first list). -/
def merge1 : List St → List St → List St
  | [], ys => ys
  | x :: xs, ys =>
    (ys.takeWhile fun y => decide (y.1 < x.1)) ++
      x :: merge1 xs (ys.dropWhile fun y => decide (y.1 < x.1))

/-- Duplicate suppression of the merge loop, keeping a candidate only when
its sum exceeds the last emitted sum (`cand[0] > merged[-1][0]`). -/
def dedupFrom (last : ℚ) : List St → List St
  | [] => []
  | x :: xs => if last < x.1 then x :: dedupFrom x.1 xs else dedupFrom last xs

/-- Duplicate suppression applied to the whole merged stream: the first
element is always kept (`if not merged`), later ones only with a strictly
larger sum. -/
def dedupAsc : List St → List St
  | [] => []
  | x :: xs => x :: dedupFrom x.1 xs

/-- The multiplicative trimming loop of `_fptas_min_cover` after the first
kept state: a state survives only when its sum is at least
`last * (1 + eps)`. -/
def trimFrom (eps last : ℚ) : List St → List St
  | [] => []
  | x :: xs =>
    if last * (1 + eps) ≤ x.1 then x :: trimFrom eps x.1 xs
    else trimFrom eps last xs

/-- The multiplicative trimming of `_fptas_min_cover`: the first merged
state is always kept, the rest go through `trimFrom`. -/
def trimStates (eps : ℚ) : List St → List St
  | [] => []
  | x :: xs => x :: trimFrom eps x.1 xs

/-- Every `k`-th element of a list (indices `0, k, 2k, ...`), the Python
slice `trimmed[::step]`. -/
def everyNth (l : List St) (k : ℕ) : List St :=
  (l.enum.filter fun p => decide (p.1 % k = 0)).map Prod.snd

/-- The hard frontier cap of `_fptas_min_cover`: when the trimmed frontier
exceeds `max_states`, keep every `step`-th state with
`step = ceil(len / max_states)`. -/
def capStates (maxStates : ℕ) (l : List St) : List St :=
  if maxStates < l.length then everyNth l ((l.length + maxStates - 1) / maxStates)
  else l

/-- One per-entry update of the approximate solver: add the entry to every
state, sort the added list, merge with the old frontier suppressing
duplicate sums, trim multiplicatively, and apply the hard size cap. -/
def fptasStep (eps : ℚ) (maxStates : ℕ) (states : List St) (e : ℚ × ℕ) : List St :=
  capStates maxStates
    (trimStates eps
      (dedupAsc (merge1 states (List.insertionSort stLE (addEntry e.1 e.2 states)))))

/-- The frontier of `_fptas_min_cover` after all entries are processed,
starting from the single zero state `[(0.0, [])]`. -/
def fptas_states (values : List (ℚ × ℕ)) (eps : ℚ) (maxStates : ℕ) : List St :=
  values.foldl (fptasStep eps maxStates) [(0, [])]

/-- The approximate solver `_fptas_min_cover`: scan the final frontier
ascending and return the first state with sum at least `target`; if none
exists return the last state (`states[-1]` in the source; the frontier is
never empty, so the default of `getLastD` is never used). -/
def fptas_min_cover (values : List (ℚ × ℕ)) (target eps : ℚ) (maxStates : ℕ) :
    St :=
  match (fptas_states values eps maxStates).find? fun p => decide (target ≤ p.1) with
  | some p => p
  | none => (fptas_states values eps maxStates).getLastD (0, [])

/-- The dispatcher `_min_cover`: the exact solver for at most 26 entries,
otherwise the approximate solver on the descending-sorted entries with the
default configuration `eps = 0.01`, `max_states = 5000` (the
`CODE_FPTAS_EPS` / `CODE_FPTAS_MAX` environment defaults). -/
def min_cover (values : List (ℚ × ℕ)) (target : ℚ) : Res :=
  if values.length ≤ 26 then mitm_min_cover values target
  else
    (some (fptas_min_cover (List.insertionSort valGE values) target (1 / 100) 5000).1,
      (fptas_min_cover (List.insertionSort valGE values) target (1 / 100) 5000).2)

/-- Round-half-even to an integer, the semantics of Python `round` (the
floats of the source are modelled as exact rationals). -/
def roundHE (x : ℚ) : ℤ :=
  if x - Int.floor x < 1 / 2 then Int.floor x
  else if (1 / 2 : ℚ) < x - Int.floor x then Int.floor x + 1
  else if 2 ∣ Int.floor x then Int.floor x else Int.floor x + 1

/-- Python `round(x, 2)`: round-half-even at two decimal places. -/
def round2 (x : ℚ) : ℚ := (roundHE (x * 100) : ℚ) / 100

/-- The fields of a `_build_option` result that the frozen claims inspect:
the rounded entry payment, the rounded total credit and the number of
cartas used.  The remaining fields (administradora, tipo, parcelas,
vencimento, fornecedor) are opaque strings and dates that no claim
mentions. -/
structure Opcao where
  entrada : ℚ
  credito_total : ℚ
  cartas : ℕ
  deriving Repr, DecidableEq

/-- The `_build_option` helper: from the chosen subset of credit values it
computes the sum, the entry payment and the option record.  On an empty
subset the source raises `IndexError` at
`subset["administradora"].iloc[0]`; this is modelled by `none`. -/
def build_option (subset : List ℚ) (taxa_total : ℚ) : Option Opcao :=
  match subset with
  | [] => none
  | _ :: _ =>
    some { entrada := round2 (subset.sum * taxa_total),
           credito_total := round2 subset.sum,
           cartas := subset.length }

/-- Per-group entry extraction of `criar_juncao_sob_demanda`:
`[(v, i) for i, v in enumerate(...) if v > 0]`. -/
def grpValues (grp : List ℚ) : List (ℚ × ℕ) :=
  (grp.enum.map fun p => (p.2, p.1)).filter fun q => decide (0 < q.1)

/-- The entry-ceiling check `entrada > best_sum * entrada_max` of
`criar_juncao_sob_demanda`, with `entrada = best_sum * taxa_total`.  When
`best_sum` is the infinity sentinel both sides are infinite (the rates are
positive) and the IEEE comparison `inf > inf` is false, so the check does
not fire; the model mirrors that. -/
def entradaExceeds (best : Option ℚ) (taxa : ℚ) (emax : Option ℚ) : Bool :=
  match emax, best with
  | none, _ => false
  | some _, none => false
  | some m, some b => decide (b * m < b * taxa)

/-- The per-group loop of `criar_juncao_sob_demanda`: skip groups without
positive values, solve, skip groups failing the ceiling check, and build
the option from the chosen rows (`grp.iloc[idxs_local]`).  A `none`
result models an uncaught exception escaping the loop. -/
def juncaoGroups (target taxa : ℚ) (emax : Option ℚ) :
    List (List ℚ) → Option (List Opcao)
  | [] => some []
  | grp :: rest =>
    let values := grpValues grp
    if values.isEmpty then juncaoGroups target taxa emax rest
    else
      let r := min_cover values target
      if entradaExceeds r.1 taxa emax then juncaoGroups target taxa emax rest
      else
        match build_option (r.2.map fun i => grp.getD i 0) taxa with
        | none => none
        | some o => (juncaoGroups target taxa emax rest).map fun l => o :: l

/-- Lexicographic order on the sort key
`(x["entrada"], x["credito_total"])` used by the final
`sorted(melhores, ...)` of `criar_juncao_sob_demanda`. -/
def optLE (a b : Opcao) : Prop :=
  a.entrada < b.entrada ∨ (a.entrada = b.entrada ∧ a.credito_total ≤ b.credito_total)

instance : DecidableRel optLE := fun a b =>
  inferInstanceAs (Decidable (_ ∨ _))

instance : IsTotal Opcao optLE := by
  constructor
  intro a b
  rcases lt_trichotomy a.entrada b.entrada with h | h | h
  · exact Or.inl (Or.inl h)
  · rcases le_total a.credito_total b.credito_total with h2 | h2
    · exact Or.inl (Or.inr ⟨h, h2⟩)
    · exact Or.inr (Or.inr ⟨h.symm, h2⟩)
  · exact Or.inr (Or.inl h)

instance : IsTrans Opcao optLE := by
  constructor
  intro a b c hab hbc
  rcases hab with h1 | ⟨h1, h1c⟩
  · rcases hbc with h2 | ⟨h2, _⟩
    · exact Or.inl (h1.trans h2)
    · exact Or.inl (h2 ▸ h1)
  · rcases hbc with h2 | ⟨h2, h2c⟩
    · exact Or.inl (h1 ▸ h2)
    · exact Or.inr ⟨h1.trans h2, h1c.trans h2c⟩

/-- The core of `criar_juncao_sob_demanda` after grouping: one option per
group that survives the filters, sorted by `(entrada, credito_total)` and
truncated to the first ten.  Groups are the per-`(administradora, tipo)`
lists of credit values; `taxa_total` is the commission rate computed
upstream; a `none` result models an uncaught exception. -/
def criar_juncao_sob_demanda (groups : List (List ℚ))
    (credito_desejado taxa_total : ℚ) (entrada_max : Option ℚ) :
    Option (List Opcao) :=
  (juncaoGroups credito_desejado taxa_total entrada_max groups).map
    fun l => (List.insertionSort optLE l).take 10

/-- Strict ordering of states by their sum (proof vocabulary). -/
def stLT (a b : St) : Prop := a.1 < b.1

instance : DecidableRel stLT := fun a b => inferInstanceAs (Decidable (a.1 < b.1))

/-- Interpretation of the best-sum register in the mathematical order: the
`none` sentinel is the top element. -/
def toT : Option ℚ → WithTop ℚ
  | none => ⊤
  | some s => (s : WithTop ℚ)

/-- Soundness invariant of the running best of `_mitm_min_cover`: it is
either the initial sentinel or a subset of the entries achieving a sum at
least `target`. -/
def GoodRes (values : List (ℚ × ℕ)) (target : ℚ) (r : Res) : Prop :=
  r = (none, []) ∨
    ∃ c, c.Sublist values ∧ r = (some (sumVals c), c.map Prod.snd) ∧
      target ≤ sumVals c

/-- A state is realised by a subset of `arr`. -/
def PairOf (arr : List (ℚ × ℕ)) (p : St) : Prop :=
  ∃ c, c.Sublist arr ∧ p = (sumVals c, c.map Prod.snd)

/-- Shape of every option built by `_build_option`: both sort-key fields
are rounded images of one underlying subset sum. -/
def OptShape (taxa : ℚ) (o : Opcao) : Prop :=
  ∃ a : ℚ, o.entrada = round2 (a * taxa) ∧ o.credito_total = round2 a

/-- A 27-entry list (descending values 100, 2.5, 0.5 and 24 entries of
0.001) on which the approximate path is taken.  Its trimmed frontier loses
the subset sum 100.5 while keeping 100 and 102.5. -/
def cexVals : List (ℚ × ℕ) :=
  [((100 : ℚ), 0), (5 / 2, 1), (1 / 2, 2)] ++
    (List.range 24).map fun i => ((1 / 1000 : ℚ), i + 3)

/-- A group of 27 unit-value cartas (total 27), used with target 100 to
exercise the unreachable case of the approximate path. -/
def g27 : List ℚ := List.replicate 27 1

/-! Basic facts about sums of entry lists. -/

theorem sumVals_nil : sumVals [] = 0 := rfl

theorem sumVals_cons (e : ℚ × ℕ) (c : List (ℚ × ℕ)) :
    sumVals (e :: c) = e.1 + sumVals c := by
  simp [sumVals]

theorem sumVals_append (c d : List (ℚ × ℕ)) :
    sumVals (c ++ d) = sumVals c + sumVals d := by
  simp [sumVals]

theorem sumVals_singleton (e : ℚ × ℕ) : sumVals [e] = e.1 := by
  simp [sumVals]

theorem sumVals_nonneg {c : List (ℚ × ℕ)} (h : ∀ p ∈ c, 0 ≤ p.1) :
    0 ≤ sumVals c := by
  induction c with
  | nil => simp [sumVals_nil]
  | cons e c ih =>
    rw [sumVals_cons]
    have h1 := h e (List.mem_cons_self e c)
    have h2 := ih fun p hp => h p (List.mem_cons_of_mem e hp)
    linarith

theorem sumVals_pos {c : List (ℚ × ℕ)} (hne : c ≠ [])
    (h : ∀ p ∈ c, 0 < p.1) : 0 < sumVals c := by
  cases c with
  | nil => exact absurd rfl hne
  | cons e c =>
    rw [sumVals_cons]
    have h1 := h e (List.mem_cons_self e c)
    have h2 : 0 ≤ sumVals c :=
      sumVals_nonneg fun p hp => le_of_lt (h p (List.mem_cons_of_mem e hp))
    linarith

theorem sumVals_le_of_sublist {c values : List (ℚ × ℕ)} (hs : c.Sublist values)
    (h : ∀ p ∈ values, 0 ≤ p.1) : sumVals c ≤ sumVals values := by
  have hmap : (c.map Prod.fst).Sublist (values.map Prod.fst) :=
    hs.map Prod.fst
  refine List.Sublist.sum_le_sum hmap ?_
  intro a ha
  rcases List.mem_map.mp ha with ⟨p, hp, rfl⟩
  exact h p hp

/-! Subset enumeration of the exact solver. -/

theorem subsetPairs_sound {arr : List (ℚ × ℕ)} :
    ∀ p ∈ subsetPairs arr, PairOf arr p := by
  induction arr with
  | nil =>
    intro p hp
    simp only [subsetPairs, List.mem_singleton] at hp
    subst hp
    exact ⟨[], List.nil_sublist _, by simp [sumVals_nil]⟩
  | cons e rest ih =>
    intro p hp
    simp only [subsetPairs, List.mem_append, List.mem_map] at hp
    rcases hp with hp | ⟨q, hq, rfl⟩
    · rcases ih p hp with ⟨c, hc, rfl⟩
      exact ⟨c, hc.cons e, rfl⟩
    · rcases ih q hq with ⟨c, hc, rfl⟩
      refine ⟨e :: c, hc.cons₂ e, ?_⟩
      simp [sumVals_cons]

theorem subsetPairs_complete {arr c : List (ℚ × ℕ)} (hc : c.Sublist arr) :
    (sumVals c, c.map Prod.snd) ∈ subsetPairs arr := by
  induction hc with
  | slnil => simp [subsetPairs, sumVals_nil]
  | cons e _ ih =>
    simp only [subsetPairs, List.mem_append]
    exact Or.inl ih
  | cons₂ e h ih =>
    simp only [subsetPairs, List.mem_append, List.mem_map]
    exact Or.inr ⟨_, ih, by simp [sumVals_cons]⟩

theorem mem_all_sums {arr : List (ℚ × ℕ)} {p : St} :
    p ∈ all_sums arr ↔ p ∈ subsetPairs arr :=
  (List.perm_insertionSort stLE (subsetPairs arr)).mem_iff

theorem all_sums_sorted (arr : List (ℚ × ℕ)) :
    (all_sums arr).Sorted stLE :=
  List.sorted_insertionSort stLE (subsetPairs arr)

theorem mem_subsetSums {arr : List (ℚ × ℕ)} {s : ℚ} :
    s ∈ subsetSums arr ↔ ∃ c, c.Sublist arr ∧ s = sumVals c := by
  constructor
  · intro hs
    rcases List.mem_map.mp hs with ⟨p, hp, rfl⟩
    rcases subsetPairs_sound p hp with ⟨c, hc, rfl⟩
    exact ⟨c, hc, rfl⟩
  · rintro ⟨c, hc, rfl⟩
    exact List.mem_map.mpr ⟨_, subsetPairs_complete hc, rfl⟩

/-! Facts about searching a sorted list for the first large enough sum. -/

theorem find?_ge_min {S : List St} {t : ℚ} {q : St}
    (hS : S.Sorted stLE)
    (h : S.find? (fun q => decide (t ≤ q.1)) = some q) :
    ∀ x ∈ S, t ≤ x.1 → q.1 ≤ x.1 := by
  induction S with
  | nil => simp at h
  | cons a S ih =>
    rw [List.sorted_cons] at hS
    intro x hx hxt
    by_cases ha : t ≤ a.1
    · have : q = a := by
        rw [List.find?_cons_of_pos _ (by simpa using ha)] at h
        exact (Option.some_injective _ h).symm
      subst this
      rcases List.mem_cons.mp hx with rfl | hx
      · exact le_refl _
      · exact hS.1 x hx
    · rw [List.find?_cons_of_neg _ (by simpa using ha)] at h
      rcases List.mem_cons.mp hx with rfl | hx
      · exact absurd hxt ha
      · exact ih hS.2 h x hx hxt

theorem find?_isSome_of_mem {S : List St} {t : ℚ} {x : St}
    (hx : x ∈ S) (hxt : t ≤ x.1) :
    ∃ q, S.find? (fun q => decide (t ≤ q.1)) = some q := by
  have : (S.find? (fun q => decide (t ≤ q.1))).isSome = true :=
    List.find?_isSome.mpr ⟨x, hx, by simpa using hxt⟩
  rcases Option.isSome_iff_exists.mp this with ⟨q, hq⟩
  exact ⟨q, hq⟩

/-! Helper facts about the minimum of a list of rationals. -/

theorem rat_min?_some {l : List ℚ} {m : ℚ} (h : l.min? = some m) :
    m ∈ l ∧ ∀ b ∈ l, m ≤ b := by
  haveI : Std.Antisymm (α := ℚ) (fun a b => a ≤ b) := ⟨fun h1 h2 => le_antisymm h1 h2⟩
  exact (List.min?_eq_some_iff (fun a => le_refl a) (fun a b => min_choice a b)
    (fun a b c => le_min_iff)).mp h

theorem rat_min?_intro {l : List ℚ} {m : ℚ} (hm : m ∈ l)
    (hlb : ∀ b ∈ l, m ≤ b) : l.min? = some m := by
  haveI : Std.Antisymm (α := ℚ) (fun a b => a ≤ b) := ⟨fun h1 h2 => le_antisymm h1 h2⟩
  exact (List.min?_eq_some_iff (fun a => le_refl a) (fun a b => min_choice a b)
    (fun a b c => le_min_iff)).mpr ⟨hm, hlb⟩

/-! Order bridge between the executable best register and `WithTop`. -/

@[simp]
theorem toT_none : toT none = ⊤ := rfl

@[simp]
theorem toT_some (s : ℚ) : toT (some s) = (s : WithTop ℚ) := rfl

theorem ltBest_true_iff {s : ℚ} {b : Option ℚ} :
    ltBest s b = true ↔ (s : WithTop ℚ) < toT b := by
  cases b with
  | none => simpa [ltBest] using WithTop.coe_lt_top s
  | some t => simp [ltBest, WithTop.coe_lt_coe]

theorem toT_le_of_ltBest_false {s : ℚ} {b : Option ℚ}
    (h : ¬ ltBest s b = true) : toT b ≤ (s : WithTop ℚ) := by
  cases b with
  | none => simp [ltBest] at h
  | some t =>
    simp only [ltBest, decide_eq_true_iff, not_lt] at h
    simpa using WithTop.coe_le_coe.mpr h

/-! Invariants of the main loop of the exact solver. -/

theorem mitm_min_cover_eq (values : List (ℚ × ℕ)) (t : ℚ) :
    mitm_min_cover values t =
      (all_sums (values.take (values.length / 2))).foldl
        (mitmStep (all_sums (values.drop (values.length / 2))) t) (none, []) := rfl

theorem mitmStep_fst_le (R : List St) (t : ℚ) (best : Res) (p : St) :
    toT (mitmStep R t best p).1 ≤ toT best.1 := by
  unfold mitmStep
  split
  · split
    next h2 => exact le_of_lt (by simpa using ltBest_true_iff.mp h2)
    next h2 => exact le_refl _
  · split
    next => exact le_refl _
    next q hq =>
      split
      next h3 => exact le_of_lt (by simpa using ltBest_true_iff.mp h3.2)
      next h3 => exact le_refl _

theorem foldl_mitm_fst_le (R : List St) (t : ℚ) (L : List St) (acc : Res) :
    toT ((L.foldl (mitmStep R t) acc).1) ≤ toT acc.1 := by
  induction L generalizing acc with
  | nil => exact le_refl _
  | cons p L ih =>
    simpa using le_trans (ih (mitmStep R t acc p)) (mitmStep_fst_le R t acc p)

theorem mitmStep_le_cand {R : List St} {t : ℚ} {p c : St} (best : Res)
    (hc : mitmCand R t p = some c) (hct : t ≤ c.1) :
    toT (mitmStep R t best p).1 ≤ (c.1 : WithTop ℚ) := by
  unfold mitmCand at hc
  unfold mitmStep
  split
  next h1 =>
    rw [if_pos h1] at hc
    obtain rfl : p = c := Option.some_injective _ hc
    split
    next h2 => exact le_refl _
    next h2 => exact toT_le_of_ltBest_false h2
  next h1 =>
    rw [if_neg h1] at hc
    split
    next hfind =>
      rw [hfind] at hc
      simp at hc
    next q hfind =>
      rw [hfind] at hc
      simp only [Option.map_some'] at hc
      obtain rfl : (p.1 + q.1, p.2 ++ q.2) = c := Option.some_injective _ hc
      split
      next h3 => exact le_refl _
      next h3 =>
        exact toT_le_of_ltBest_false fun hh => h3 ⟨hct, hh⟩

theorem foldl_mitm_le_cand {R : List St} {t : ℚ} {L : List St} {p c : St}
    (acc : Res) (hp : p ∈ L) (hc : mitmCand R t p = some c) (hct : t ≤ c.1) :
    toT ((L.foldl (mitmStep R t) acc).1) ≤ (c.1 : WithTop ℚ) := by
  induction L generalizing acc with
  | nil => simp at hp
  | cons x L ih =>
    rw [List.foldl_cons]
    rcases List.mem_cons.mp hp with rfl | hp2
    · exact le_trans (foldl_mitm_fst_le R t L _)
        (mitmStep_le_cand acc hc hct)
    · exact ih _ hp2

theorem mitmStep_good {left right : List (ℚ × ℕ)} {t : ℚ} {R : List St}
    {best : Res} {p : St} (hp : PairOf left p)
    (hR : ∀ q ∈ R, PairOf right q)
    (hb : GoodRes (left ++ right) t best) :
    GoodRes (left ++ right) t (mitmStep R t best p) := by
  rcases hp with ⟨cL, hcL, rfl⟩
  unfold mitmStep
  split
  next h1 =>
    split
    next h2 =>
      refine Or.inr ⟨cL, hcL.trans (List.sublist_append_left left right), rfl, ?_⟩
      exact sub_nonpos.mp h1
    next h2 => exact hb
  next h1 =>
    split
    next => exact hb
    next q hfind =>
      rcases hR q (List.mem_of_find?_eq_some hfind) with ⟨cR, hcR, rfl⟩
      split
      next h3 =>
        refine Or.inr ⟨cL ++ cR, hcL.append hcR, ?_, ?_⟩
        · simp [sumVals_append]
        · simpa [sumVals_append] using h3.1
      next h3 => exact hb

theorem mitm_good (values : List (ℚ × ℕ)) (t : ℚ) :
    GoodRes values t (mitm_min_cover values t) := by
  have hsplit : values.take (values.length / 2) ++ values.drop (values.length / 2)
      = values := List.take_append_drop _ _
  rw [mitm_min_cover_eq]
  have key : ∀ L : List St,
      (∀ p ∈ L, PairOf (values.take (values.length / 2)) p) →
      ∀ acc : Res, GoodRes values t acc →
      GoodRes values t
        (L.foldl (mitmStep (all_sums (values.drop (values.length / 2))) t) acc) := by
    intro L
    induction L with
    | nil => intro _ acc hacc; exact hacc
    | cons p L ih =>
      intro hmem acc hacc
      rw [List.foldl_cons]
      refine ih (fun x hx => hmem x (List.mem_cons_of_mem p hx)) _ ?_
      have hRgood : ∀ q ∈ all_sums (values.drop (values.length / 2)),
          PairOf (values.drop (values.length / 2)) q :=
        fun q hq => subsetPairs_sound q (mem_all_sums.mp hq)
      have hacc2 : GoodRes (values.take (values.length / 2) ++
          values.drop (values.length / 2)) t acc := by
        rw [hsplit]; exact hacc
      have step := mitmStep_good (hmem p (List.mem_cons_self p L)) hRgood hacc2
      rw [hsplit] at step
      exact step
  refine key _ (fun p hp => subsetPairs_sound p (mem_all_sums.mp hp)) _ (Or.inl rfl)

theorem mitm_le_subset {values : List (ℚ × ℕ)} {t : ℚ}
    (hpos : ∀ p ∈ values, 0 < p.1) {c : List (ℚ × ℕ)}
    (hc : c.Sublist values) (hct : t ≤ sumVals c) :
    toT (mitm_min_cover values t).1 ≤ (sumVals c : WithTop ℚ) := by
  have hsplit : values.take (values.length / 2) ++ values.drop (values.length / 2)
      = values := List.take_append_drop _ _
  have hc2 : c.Sublist
      (values.take (values.length / 2) ++ values.drop (values.length / 2)) := by
    rw [hsplit]; exact hc
  rcases List.sublist_append_iff.mp hc2 with ⟨cL, cR, rfl, hL, hR⟩
  have hposL : ∀ p ∈ cL, (0 : ℚ) < p.1 := fun p hp =>
    hpos p (hL.subset.trans (List.take_sublist _ _).subset hp)
  have hposR : ∀ p ∈ cR, (0 : ℚ) < p.1 := fun p hp =>
    hpos p (hR.subset.trans (List.drop_sublist _ _).subset hp)
  have hpL : (sumVals cL, cL.map Prod.snd) ∈ all_sums (values.take (values.length / 2)) :=
    mem_all_sums.mpr (subsetPairs_complete hL)
  rw [mitm_min_cover_eq]
  by_cases h1 : t - sumVals cL ≤ 0
  · have hcand : mitmCand (all_sums (values.drop (values.length / 2))) t
        (sumVals cL, cL.map Prod.snd) = some (sumVals cL, cL.map Prod.snd) := by
      unfold mitmCand
      rw [if_pos (by simpa using h1)]
    have hres := foldl_mitm_le_cand (none, []) hpL hcand
      (by simpa using sub_nonpos.mp h1)
    refine le_trans hres (WithTop.coe_le_coe.mpr ?_)
    rw [sumVals_append]
    have : 0 ≤ sumVals cR := sumVals_nonneg fun p hp => le_of_lt (hposR p hp)
    linarith
  · have hmemR : (sumVals cR, cR.map Prod.snd)
        ∈ all_sums (values.drop (values.length / 2)) :=
      mem_all_sums.mpr (subsetPairs_complete hR)
    have hneed : t - sumVals cL ≤ sumVals cR := by
      rw [sumVals_append] at hct; linarith
    obtain ⟨q, hq⟩ := find?_isSome_of_mem (t := t - sumVals cL) hmemR hneed
    have hqp : t - sumVals cL ≤ q.1 := by
      simpa using List.find?_some hq
    have hqle : q.1 ≤ sumVals cR :=
      find?_ge_min (all_sums_sorted _) hq _ hmemR hneed
    have hcand : mitmCand (all_sums (values.drop (values.length / 2))) t
        (sumVals cL, cL.map Prod.snd)
        = some (sumVals cL + q.1, cL.map Prod.snd ++ q.2) := by
      unfold mitmCand
      rw [if_neg (by simpa using h1)]
      have hq2 : (all_sums (values.drop (values.length / 2))).find?
          (fun r => decide (t - (sumVals cL, cL.map Prod.snd).1 ≤ r.1)) = some q := hq
      rw [hq2]
      rfl
    have hct2 : t ≤ sumVals cL + q.1 := by linarith
    have hres := foldl_mitm_le_cand (none, []) hpL hcand hct2
    refine le_trans hres (WithTop.coe_le_coe.mpr ?_)
    show sumVals cL + q.1 ≤ sumVals (cL ++ cR)
    rw [sumVals_append]
    linarith

/-! Characterisation of the exact solver. -/

theorem mitm_eq_none_iff {values : List (ℚ × ℕ)} {t : ℚ}
    (hpos : ∀ p ∈ values, 0 < p.1) :
    (mitm_min_cover values t).1 = none ↔ sumVals values < t := by
  constructor
  · intro h
    by_contra hlt
    push_neg at hlt
    have hub := mitm_le_subset hpos (List.Sublist.refl values) hlt
    rw [h] at hub
    simp at hub
  · intro hlt
    rcases mitm_good values t with h | ⟨c, hc, hr, hts⟩
    · rw [h]
    · exfalso
      have hle := sumVals_le_of_sublist hc fun p hp => le_of_lt (hpos p hp)
      linarith

theorem mitm_eq_bruteMin {values : List (ℚ × ℕ)} {t : ℚ}
    (hpos : ∀ p ∈ values, 0 < p.1) :
    (mitm_min_cover values t).1 = bruteMin values t := by
  unfold bruteMin
  cases hbm : ((subsetSums values).filter fun s => decide (t ≤ s)).min? with
  | none =>
    have hemp : (subsetSums values).filter (fun s => decide (t ≤ s)) = [] :=
      List.min?_eq_none_iff.mp hbm
    rcases mitm_good values t with h | ⟨c, hc, hr, hts⟩
    · rw [h]
    · exfalso
      have hmem : sumVals c ∈ (subsetSums values).filter fun s => decide (t ≤ s) :=
        List.mem_filter.mpr ⟨mem_subsetSums.mpr ⟨c, hc, rfl⟩, by simpa using hts⟩
      rw [hemp] at hmem
      simp at hmem
  | some m =>
    obtain ⟨hmmem, hmlb⟩ := rat_min?_some hbm
    obtain ⟨hm1, hm2⟩ := List.mem_filter.mp hmmem
    rcases mem_subsetSums.mp hm1 with ⟨cm, hcm, rfl⟩
    have htm : t ≤ sumVals cm := by simpa using hm2
    have hub := mitm_le_subset hpos hcm htm
    rcases mitm_good values t with h | ⟨c, hc, hr, hts⟩
    · rw [h] at hub
      simp at hub
    · rw [hr] at hub ⊢
      have hle1 : sumVals c ≤ sumVals cm := by
        simpa [WithTop.coe_le_coe] using hub
      have hle2 : sumVals cm ≤ sumVals c :=
        hmlb _ (List.mem_filter.mpr
          ⟨mem_subsetSums.mpr ⟨c, hc, rfl⟩, by simpa using hts⟩)
      exact congrArg some (le_antisymm hle1 hle2)

theorem mitm_target_nonpos {values : List (ℚ × ℕ)} {t : ℚ}
    (hpos : ∀ p ∈ values, 0 < p.1) (ht : t ≤ 0) :
    mitm_min_cover values t = (some 0, []) := by
  have hbm : bruteMin values t = some 0 := by
    unfold bruteMin
    refine rat_min?_intro ?_ ?_
    · exact List.mem_filter.mpr
        ⟨mem_subsetSums.mpr ⟨[], List.nil_sublist _, rfl⟩, by simpa using ht⟩
    · intro b hb
      obtain ⟨hb1, _⟩ := List.mem_filter.mp hb
      rcases mem_subsetSums.mp hb1 with ⟨c, hc, rfl⟩
      exact sumVals_nonneg fun p hp => le_of_lt (hpos p (hc.subset hp))
  have h1 : (mitm_min_cover values t).1 = some 0 := by
    rw [mitm_eq_bruteMin hpos, hbm]
  rcases mitm_good values t with h | ⟨c, hc, hr, hts⟩
  · rw [h] at h1
    simp at h1
  · have hc0 : sumVals c = 0 := by
      rw [hr] at h1
      simpa using h1
    have hcnil : c = [] := by
      by_contra hne
      have := sumVals_pos hne fun p hp => hpos p (hc.subset hp)
      rw [hc0] at this
      exact lt_irrefl 0 this
    subst hcnil
    rw [hr]
    simp [sumVals_nil]

/-! Structural lemmas for the approximate solver frontier. -/

theorem merge1_mem {xs ys : List St} {p : St} (h : p ∈ merge1 xs ys) :
    p ∈ xs ∨ p ∈ ys := by
  induction xs generalizing ys with
  | nil => exact Or.inr h
  | cons x xs ih =>
    simp only [merge1, List.mem_append] at h
    rcases h with h1 | h2
    · exact Or.inr ((List.takeWhile_sublist _).subset h1)
    · rcases List.mem_cons.mp h2 with rfl | h3
      · exact Or.inl (List.mem_cons_self _ _)
      · rcases ih h3 with h4 | h4
        · exact Or.inl (List.mem_cons_of_mem _ h4)
        · exact Or.inr ((List.dropWhile_sublist _).subset h4)

theorem takeWhile_lt_nil {c : St} {ys : List St} (h : ∀ y ∈ ys, c.1 ≤ y.1) :
    (ys.takeWhile fun y => decide (y.1 < c.1)) = [] := by
  cases ys with
  | nil => rfl
  | cons y ys =>
    rw [List.takeWhile_cons]
    simp [not_lt.mpr (h y (List.mem_cons_self _ _))]

theorem merge1_cons_head {x : St} {xs ys : List St} (h : ∀ y ∈ ys, x.1 ≤ y.1) :
    (merge1 (x :: xs) ys).head? = some x := by
  simp only [merge1, takeWhile_lt_nil h, List.nil_append, List.head?_cons]

theorem merge1_cons_ne_nil (x : St) (xs ys : List St) :
    merge1 (x :: xs) ys ≠ [] := by
  simp only [merge1]
  intro h
  rcases List.append_eq_nil.mp h with ⟨_, h2⟩
  exact List.cons_ne_nil _ _ h2

theorem dedupFrom_sublist (last : ℚ) (l : List St) :
    (dedupFrom last l).Sublist l := by
  induction l generalizing last with
  | nil => simp [dedupFrom]
  | cons x xs ih =>
    simp only [dedupFrom]
    split
    · exact (ih x.1).cons₂ x
    · exact (ih last).cons x

theorem dedupFrom_gt {l : List St} {a : ℚ} :
    (∀ p ∈ dedupFrom a l, a < p.1) ∧ (dedupFrom a l).Pairwise stLT := by
  induction l generalizing a with
  | nil => simp [dedupFrom]
  | cons x xs ih =>
    simp only [dedupFrom]
    split
    next h =>
      refine ⟨?_, ?_⟩
      · intro p hp
        rcases List.mem_cons.mp hp with rfl | hp2
        · exact h
        · exact lt_trans h ((ih (a := x.1)).1 p hp2)
      · exact List.pairwise_cons.mpr
          ⟨fun p hp => (ih (a := x.1)).1 p hp, (ih (a := x.1)).2⟩
    next h => exact ih

theorem dedupAsc_pairwise (l : List St) : (dedupAsc l).Pairwise stLT := by
  cases l with
  | nil => simp [dedupAsc]
  | cons x xs =>
    simp only [dedupAsc]
    exact List.pairwise_cons.mpr ⟨fun p hp => dedupFrom_gt.1 p hp, dedupFrom_gt.2⟩

theorem dedupAsc_mem {l : List St} {p : St} (h : p ∈ dedupAsc l) : p ∈ l := by
  cases l with
  | nil => simpa [dedupAsc] using h
  | cons x xs =>
    simp only [dedupAsc] at h
    rcases List.mem_cons.mp h with rfl | h2
    · exact List.mem_cons_self _ _
    · exact List.mem_cons_of_mem _ ((dedupFrom_sublist x.1 xs).subset h2)

theorem trimFrom_sublist (eps last : ℚ) (l : List St) :
    (trimFrom eps last l).Sublist l := by
  induction l generalizing last with
  | nil => simp [trimFrom]
  | cons x xs ih =>
    simp only [trimFrom]
    split
    · exact (ih x.1).cons₂ x
    · exact (ih last).cons x

theorem trimStates_sublist (eps : ℚ) (l : List St) :
    (trimStates eps l).Sublist l := by
  cases l with
  | nil => simp [trimStates]
  | cons x xs =>
    simp only [trimStates]
    exact (trimFrom_sublist eps x.1 xs).cons₂ x

theorem everyNth_sublist (l : List St) (k : ℕ) : (everyNth l k).Sublist l := by
  unfold everyNth
  have h1 : ((l.enum.filter fun p => decide (p.1 % k = 0))).Sublist l.enum :=
    List.filter_sublist _
  have h2 := h1.map Prod.snd
  rw [List.enum_map_snd] at h2
  exact h2

theorem everyNth_head (x : St) (xs : List St) (k : ℕ) :
    (everyNth (x :: xs) k).head? = some x := by
  unfold everyNth
  rw [List.enum_cons, List.filter_cons_of_pos (by simp)]
  simp

theorem capStates_sublist (m : ℕ) (l : List St) : (capStates m l).Sublist l := by
  unfold capStates
  split
  · exact everyNth_sublist _ _
  · exact List.Sublist.refl _

theorem capStates_head {m : ℕ} {x : St} {l : List St} (h : l.head? = some x) :
    (capStates m l).head? = some x := by
  cases l with
  | nil => simp at h
  | cons y ys =>
    obtain rfl : y = x := by simpa using h
    unfold capStates
    split
    · exact everyNth_head _ _ _
    · simp

theorem head?_some_ne_nil {l : List St} {x : St} (h : l.head? = some x) :
    l ≠ [] := by
  cases l with
  | nil => simp at h
  | cons y ys => simp

theorem head?_some_shape {l : List St} {x : St} (h : l.head? = some x) :
    ∃ t, l = x :: t := by
  cases l with
  | nil => simp at h
  | cons y ys =>
    obtain rfl : y = x := by simpa using h
    exact ⟨ys, rfl⟩

theorem trimStates_head {e : ℚ} {x : St} {l : List St} (h : l.head? = some x) :
    (trimStates e l).head? = some x := by
  rcases head?_some_shape h with ⟨t, rfl⟩
  simp [trimStates]

theorem dedupAsc_head {x : St} {l : List St} (h : l.head? = some x) :
    (dedupAsc l).head? = some x := by
  rcases head?_some_shape h with ⟨t, rfl⟩
  simp [dedupAsc]

/-! Per-entry invariants of the approximate solver. -/

theorem fptasStep_pairwise (eps : ℚ) (m : ℕ) (S : List St) (e : ℚ × ℕ) :
    (fptasStep eps m S e).Pairwise stLT := by
  unfold fptasStep
  exact List.Pairwise.sublist (capStates_sublist _ _)
    (List.Pairwise.sublist (trimStates_sublist _ _) (dedupAsc_pairwise _))

theorem fptasStep_ne_nil {S : List St} (h : S ≠ []) (eps : ℚ) (m : ℕ)
    (e : ℚ × ℕ) : fptasStep eps m S e ≠ [] := by
  unfold fptasStep
  cases S with
  | nil => exact absurd rfl h
  | cons x xs =>
    rcases List.exists_cons_of_ne_nil
        (merge1_cons_ne_nil x xs (List.insertionSort stLE (addEntry e.1 e.2 (x :: xs))))
      with ⟨y, t, hy⟩
    rw [hy]
    have hd : (dedupAsc (y :: t)).head? = some y := dedupAsc_head rfl
    rcases head?_some_shape hd with ⟨t2, ht2⟩
    rw [ht2]
    have htr : (trimStates eps (y :: t2)).head? = some y := trimStates_head rfl
    rcases head?_some_shape htr with ⟨t3, ht3⟩
    rw [ht3]
    exact head?_some_ne_nil (capStates_head (x := y) rfl)

theorem fptasStep_mem {eps : ℚ} {m : ℕ} {S : List St} {e : ℚ × ℕ} {p : St}
    (h : p ∈ fptasStep eps m S e) :
    p ∈ S ∨ ∃ q ∈ S, p = (q.1 + e.1, q.2 ++ [e.2]) := by
  unfold fptasStep at h
  have h1 : p ∈ merge1 S (List.insertionSort stLE (addEntry e.1 e.2 S)) :=
    dedupAsc_mem ((trimStates_sublist _ _).subset ((capStates_sublist _ _).subset h))
  rcases merge1_mem h1 with h2 | h2
  · exact Or.inl h2
  · have h3 : p ∈ addEntry e.1 e.2 S :=
      (List.perm_insertionSort stLE _).mem_iff.mp h2
    rcases List.mem_map.mp h3 with ⟨q, hq, rfl⟩
    exact Or.inr ⟨q, hq, rfl⟩

theorem fptasStep_inv {eps : ℚ} {m : ℕ} {S : List St} {e : ℚ × ℕ}
    (hhead : S.head? = some (0, [])) (hpair : S.Pairwise stLT) (hv : 0 < e.1) :
    (fptasStep eps m S e).head? = some (0, []) := by
  rcases head?_some_shape hhead with ⟨xs, rfl⟩
  have hnn : ∀ p ∈ ((0, ([] : List ℕ)) :: xs), 0 ≤ p.1 := by
    intro p hp
    rcases List.mem_cons.mp hp with rfl | hp2
    · exact le_refl _
    · exact le_of_lt ((List.pairwise_cons.mp hpair).1 p hp2)
  have hadd : ∀ y ∈ List.insertionSort stLE (addEntry e.1 e.2 ((0, []) :: xs)),
      ((0 : ℚ), ([] : List ℕ)).1 ≤ y.1 := by
    intro y hy
    have hy2 : y ∈ addEntry e.1 e.2 ((0, []) :: xs) :=
      (List.perm_insertionSort stLE _).mem_iff.mp hy
    rcases List.mem_map.mp hy2 with ⟨q, hq, rfl⟩
    have := hnn q hq
    show (0 : ℚ) ≤ q.1 + e.1
    linarith
  unfold fptasStep
  exact capStates_head (trimStates_head (dedupAsc_head (merge1_cons_head hadd)))

/-! Frontier invariants after every per-entry update. -/

theorem fold_fptas_inv {eps : ℚ} {m : ℕ} {l : List (ℚ × ℕ)}
    (hl : ∀ p ∈ l, (0 : ℚ) < p.1) :
    ∀ S : List St, S.head? = some (0, []) → S.Pairwise stLT →
      (l.foldl (fptasStep eps m) S).head? = some (0, []) ∧
        (l.foldl (fptasStep eps m) S).Pairwise stLT := by
  induction l with
  | nil => exact fun S h1 h2 => ⟨h1, h2⟩
  | cons e l ih =>
    intro S h1 h2
    rw [List.foldl_cons]
    have hv : (0 : ℚ) < e.1 := hl e (List.mem_cons_self _ _)
    have h1s : (fptasStep eps m S e).head? = some (0, []) :=
      fptasStep_inv h1 h2 hv
    exact ih (fun p hp => hl p (List.mem_cons_of_mem _ hp)) _ h1s
      (fptasStep_pairwise eps m S e)

theorem fptas_states_inv {values : List (ℚ × ℕ)} {e : ℚ} {m : ℕ}
    (hpos : ∀ p ∈ values, (0 : ℚ) < p.1) :
    (fptas_states values e m).head? = some (0, []) ∧
      (fptas_states values e m).Pairwise stLT :=
  fold_fptas_inv hpos [(0, [])] rfl (by simp)

theorem fold_fptas_pairwise (eps : ℚ) (m : ℕ) (l : List (ℚ × ℕ)) :
    ∀ S : List St, S.Pairwise stLT →
      (l.foldl (fptasStep eps m) S).Pairwise stLT := by
  induction l with
  | nil => exact fun S h => h
  | cons e l ih =>
    intro S h
    rw [List.foldl_cons]
    exact ih _ (fptasStep_pairwise eps m S e)

theorem fptas_states_pairwise (values : List (ℚ × ℕ)) (eps : ℚ) (m : ℕ) :
    (fptas_states values eps m).Pairwise stLT :=
  fold_fptas_pairwise eps m values [(0, [])] (by simp)

theorem fold_fptas_ne_nil (eps : ℚ) (m : ℕ) (l : List (ℚ × ℕ)) :
    ∀ S : List St, S ≠ [] → l.foldl (fptasStep eps m) S ≠ [] := by
  induction l with
  | nil => exact fun S h => h
  | cons e l ih =>
    intro S h
    rw [List.foldl_cons]
    exact ih _ (fptasStep_ne_nil h eps m e)

theorem fptas_states_ne_nil (values : List (ℚ × ℕ)) (eps : ℚ) (m : ℕ) :
    fptas_states values eps m ≠ [] :=
  fold_fptas_ne_nil eps m values [(0, [])] (by simp)

theorem fptasStep_pairOf {eps : ℚ} {m : ℕ} {S : List St}
    {pre : List (ℚ × ℕ)} {e : ℚ × ℕ} (hS : ∀ p ∈ S, PairOf pre p) :
    ∀ p ∈ fptasStep eps m S e, PairOf (pre ++ [e]) p := by
  intro p hp
  rcases fptasStep_mem hp with h | ⟨q, hq, rfl⟩
  · rcases hS p h with ⟨c, hc, rfl⟩
    exact ⟨c, hc.trans (List.sublist_append_left _ _), rfl⟩
  · rcases hS q hq with ⟨c, hc, rfl⟩
    refine ⟨c ++ [e], hc.append (List.Sublist.refl _), ?_⟩
    simp [sumVals_append, sumVals_singleton]

theorem fptas_states_pairOf {values : List (ℚ × ℕ)} {eps : ℚ} {m : ℕ} :
    ∀ p ∈ fptas_states values eps m, PairOf values p := by
  have key : ∀ (l pre : List (ℚ × ℕ)) (S : List St),
      (∀ p ∈ S, PairOf pre p) →
      ∀ p ∈ l.foldl (fptasStep eps m) S, PairOf (pre ++ l) p := by
    intro l
    induction l with
    | nil =>
      intro pre S hS p hp
      simpa using hS p hp
    | cons e l ih =>
      intro pre S hS p hp
      rw [List.foldl_cons] at hp
      have := ih (pre ++ [e]) _ (fptasStep_pairOf hS) p hp
      simpa using this
  have hinit : ∀ p ∈ [((0 : ℚ), ([] : List ℕ))], PairOf [] p := by
    intro p hp
    simp only [List.mem_singleton] at hp
    subst hp
    exact ⟨[], List.nil_sublist _, rfl⟩
  intro p hp
  simpa using key values [] [(0, [])] hinit p hp

/-! Reading off the approximate result. -/

theorem fptas_min_cover_eq_found {values : List (ℚ × ℕ)} {t eps : ℚ} {m : ℕ}
    {p : St}
    (h : (fptas_states values eps m).find? (fun q => decide (t ≤ q.1)) = some p) :
    fptas_min_cover values t eps m = p := by
  unfold fptas_min_cover
  rw [h]

theorem fptas_min_cover_eq_last {values : List (ℚ × ℕ)} {t eps : ℚ} {m : ℕ}
    (h : (fptas_states values eps m).find? (fun q => decide (t ≤ q.1)) = none) :
    fptas_min_cover values t eps m = (fptas_states values eps m).getLastD (0, []) := by
  unfold fptas_min_cover
  rw [h]

theorem getLastD_mem {l : List St} (h : l ≠ []) (d : St) : l.getLastD d ∈ l := by
  induction l generalizing d with
  | nil => exact absurd rfl h
  | cons x xs ih =>
    rw [List.getLastD_cons]
    cases xs with
    | nil => simp
    | cons y ys => exact List.mem_cons_of_mem _ (ih (by simp) x)

theorem pairwise_le_getLastD {l : List St} (hp : l.Pairwise stLT) (d : St) :
    ∀ x ∈ l, x.1 ≤ (l.getLastD d).1 := by
  induction l generalizing d with
  | nil => intro x hx; simp at hx
  | cons a l ih =>
    intro x hx
    rw [List.getLastD_cons]
    cases l with
    | nil =>
      rcases List.mem_cons.mp hx with rfl | hx2
      · simp
      · simp at hx2
    | cons b l2 =>
      rcases List.mem_cons.mp hx with rfl | hx2
      · have hlast : (List.getLastD (b :: l2) x) ∈ b :: l2 :=
          getLastD_mem (by simp) x
        exact le_of_lt ((List.pairwise_cons.mp hp).1 _ hlast)
      · exact ih (List.pairwise_cons.mp hp).2 a x hx2

theorem fptas_min_cover_mem (values : List (ℚ × ℕ)) (t eps : ℚ) (m : ℕ) :
    fptas_min_cover values t eps m ∈ fptas_states values eps m := by
  unfold fptas_min_cover
  cases h : (fptas_states values eps m).find? fun q => decide (t ≤ q.1) with
  | none => exact getLastD_mem (fptas_states_ne_nil values eps m) _
  | some p => exact List.mem_of_find?_eq_some h

/-! Monotonicity of the display rounding. -/

theorem roundHE_ge_floor (x : ℚ) : Int.floor x ≤ roundHE x := by
  unfold roundHE
  split_ifs <;> omega

theorem roundHE_le_floor_succ (x : ℚ) : roundHE x ≤ Int.floor x + 1 := by
  unfold roundHE
  split_ifs <;> omega

theorem roundHE_mono {x y : ℚ} (h : x ≤ y) : roundHE x ≤ roundHE y := by
  have hf := Int.floor_mono h
  rcases eq_or_lt_of_le hf with hf2 | hf2
  · unfold roundHE
    rw [← hf2]
    have hfx : (Int.floor x : ℚ) ≤ x := Int.floor_le x
    split_ifs <;> first | omega | linarith
  · have h1 := roundHE_le_floor_succ x
    have h2 := roundHE_ge_floor y
    omega

theorem round2_mono {x y : ℚ} (h : x ≤ y) : round2 x ≤ round2 y := by
  unfold round2
  have h1 : roundHE (x * 100) ≤ roundHE (y * 100) :=
    roundHE_mono (by linarith)
  have h2 : ((roundHE (x * 100) : ℚ)) ≤ (roundHE (y * 100) : ℚ) := by
    exact_mod_cast h1
  linarith

/-! Shape of the options produced by the grouped solve. -/

theorem build_option_shape {subset : List ℚ} {taxa : ℚ} {o : Opcao}
    (h : build_option subset taxa = some o) : OptShape taxa o := by
  cases subset with
  | nil => simp [build_option] at h
  | cons a s =>
    simp only [build_option, Option.some.injEq] at h
    subst h
    exact ⟨(a :: s).sum, rfl, rfl⟩

theorem juncaoGroups_shape {target taxa : ℚ} {emax : Option ℚ} :
    ∀ {gs : List (List ℚ)} {l : List Opcao},
      juncaoGroups target taxa emax gs = some l → ∀ o ∈ l, OptShape taxa o := by
  intro gs
  induction gs with
  | nil =>
    intro l h o ho
    simp only [juncaoGroups, Option.some.injEq] at h
    subst h
    simp at ho
  | cons grp gs ih =>
    intro l h o ho
    simp only [juncaoGroups] at h
    split at h
    · exact ih h o ho
    · split at h
      · exact ih h o ho
      · split at h
        next => simp at h
        next o2 hbuild =>
          rcases Option.map_eq_some'.mp h with ⟨l2, hl2, rfl⟩
          rcases List.mem_cons.mp ho with rfl | ho2
          · exact build_option_shape hbuild
          · exact ih hl2 o ho2

theorem optLE_credito {taxa : ℚ} (htaxa : 0 ≤ taxa) {a b : Opcao}
    (ha : OptShape taxa a) (hb : OptShape taxa b) (hab : optLE a b) :
    a.credito_total ≤ b.credito_total := by
  rcases ha with ⟨xa, hea, hca⟩
  rcases hb with ⟨xb, heb, hcb⟩
  rcases hab with h1 | ⟨_, h2⟩
  · by_contra hcc
    push_neg at hcc
    rw [hca, hcb] at hcc
    have hxy : xb < xa := by
      by_contra hxx
      push_neg at hxx
      exact absurd (round2_mono hxx) (not_le.mpr hcc)
    have hm : xb * taxa ≤ xa * taxa :=
      mul_le_mul_of_nonneg_right (le_of_lt hxy) htaxa
    have hrm := round2_mono hm
    rw [← hea, ← heb] at hrm
    exact absurd h1 (not_lt.mpr hrm)
  · exact h2

/-! Dispatcher-level assembly lemmas. -/

theorem min_cover_target_nonpos {values : List (ℚ × ℕ)} {t : ℚ}
    (hpos : ∀ p ∈ values, 0 < p.1) (ht : t ≤ 0) :
    min_cover values t = (some 0, []) := by
  unfold min_cover
  split
  next hn => exact mitm_target_nonpos hpos ht
  next hn =>
    have hpos2 : ∀ p ∈ List.insertionSort valGE values, (0 : ℚ) < p.1 := fun p hp =>
      hpos p ((List.perm_insertionSort valGE values).mem_iff.mp hp)
    obtain ⟨hhead, _⟩ :=
      fptas_states_inv (e := 1 / 100) (m := 5000) hpos2
    rcases head?_some_shape hhead with ⟨tl, htl⟩
    have hfind : (fptas_states (List.insertionSort valGE values) (1 / 100)
        5000).find? (fun q => decide (t ≤ q.1)) = some (0, []) := by
      rw [htl]
      exact List.find?_cons_of_pos _ (by simpa using ht)
    rw [fptas_min_cover_eq_found hfind]

theorem min_cover_integrity {values : List (ℚ × ℕ)} {t s : ℚ} {ids : List ℕ}
    (hids : (values.map Prod.snd).Nodup)
    (h : min_cover values t = (some s, ids)) (hr : t ≤ s) :
    ids.Nodup ∧ (∀ i ∈ ids, i ∈ values.map Prod.snd) ∧
      ∃ c, c.Subperm values ∧ ids = c.map Prod.snd ∧ s = sumVals c := by
  unfold min_cover at h
  split at h
  next hn =>
    rcases mitm_good values t with hg | ⟨c, hc, hrr, hts⟩
    · rw [hg] at h
      simp [Prod.ext_iff] at h
    · rw [hrr] at h
      obtain ⟨hs, hids2⟩ : some (sumVals c) = some s ∧ c.map Prod.snd = ids := by
        simpa [Prod.ext_iff] using h

      obtain rfl : sumVals c = s := by simpa using hs
      subst hids2
      refine ⟨List.Nodup.sublist (hc.map Prod.snd) hids, ?_,
        c, hc.subperm, rfl, rfl⟩
      intro i hi
      exact (hc.map Prod.snd).subset hi
  next hn =>
    have hperm : (List.insertionSort valGE values).Perm values :=
      List.perm_insertionSort valGE values
    have hmem := fptas_min_cover_mem (List.insertionSort valGE values) t (1 / 100) 5000
    rcases fptas_states_pairOf _ hmem with ⟨c, hc, hpr⟩
    obtain ⟨hs, hids2⟩ :
        some (fptas_min_cover (List.insertionSort valGE values) t (1 / 100) 5000).1
          = some s ∧
        (fptas_min_cover (List.insertionSort valGE values) t (1 / 100) 5000).2 = ids := by
      simpa [Prod.ext_iff] using h
    have hs2 : (fptas_min_cover (List.insertionSort valGE values) t (1 / 100) 5000).1
        = s := by simpa using hs
    have hfst : sumVals c = s := by rw [← hs2, hpr]
    have hsnd : c.map Prod.snd = ids := by rw [← hids2, hpr]
    have hnodup_sorted : ((List.insertionSort valGE values).map Prod.snd).Nodup :=
      (hperm.map Prod.snd).symm.nodup hids
    subst hsnd
    refine ⟨List.Nodup.sublist (hc.map Prod.snd) hnodup_sorted, ?_,
      c, hc.subperm.trans hperm.subperm, rfl, hfst.symm⟩
    intro i hi
    have := (hc.map Prod.snd).subset hi
    exact ((hperm.map Prod.snd).mem_iff).mp this

theorem min_cover_monotone {values : List (ℚ × ℕ)} {t1 t2 s1 s2 : ℚ}
    {ids1 ids2 : List ℕ} (hpos : ∀ p ∈ values, 0 < p.1) (h12 : t1 ≤ t2)
    (h1 : min_cover values t1 = (some s1, ids1)) (hr1 : t1 ≤ s1)
    (h2 : min_cover values t2 = (some s2, ids2)) (hr2 : t2 ≤ s2) :
    s1 ≤ s2 := by
  unfold min_cover at h1 h2
  by_cases hn : values.length ≤ 26
  · rw [if_pos hn] at h1 h2
    have hb1 : bruteMin values t1 = some s1 := by
      rw [← mitm_eq_bruteMin hpos, h1]
    have hb2 : bruteMin values t2 = some s2 := by
      rw [← mitm_eq_bruteMin hpos, h2]
    obtain ⟨_, hlb1⟩ := rat_min?_some (l := (subsetSums values).filter
      fun s => decide (t1 ≤ s)) hb1
    obtain ⟨hm2, _⟩ := rat_min?_some (l := (subsetSums values).filter
      fun s => decide (t2 ≤ s)) hb2
    obtain ⟨hm2a, hm2b⟩ := List.mem_filter.mp hm2
    refine hlb1 _ (List.mem_filter.mpr ⟨hm2a, ?_⟩)
    have : t2 ≤ s2 := by simpa using hm2b
    simp only [decide_eq_true_iff]
    linarith
  · rw [if_neg hn] at h1 h2
    have hs1 : (fptas_min_cover (List.insertionSort valGE values) t1 (1 / 100) 5000).1
        = s1 := by
      have := congrArg Prod.fst h1
      simpa using this
    have hs2 : (fptas_min_cover (List.insertionSort valGE values) t2 (1 / 100) 5000).1
        = s2 := by
      have := congrArg Prod.fst h2
      simpa using this
    have hsorted : (fptas_states (List.insertionSort valGE values) (1 / 100)
        5000).Sorted stLE :=
      (fptas_states_pairwise _ _ _).imp fun hab => le_of_lt hab
    cases hf1 : (fptas_states (List.insertionSort valGE values) (1 / 100)
        5000).find? (fun q => decide (t1 ≤ q.1)) with
    | none =>
      exfalso
      have hmem := fptas_min_cover_mem (List.insertionSort valGE values) t1 (1 / 100) 5000
      have hno := List.find?_eq_none.mp hf1 _ hmem
      simp only [decide_eq_true_iff] at hno
      exact hno (by rw [hs1]; exact hr1)
    | some p1 =>
      cases hf2 : (fptas_states (List.insertionSort valGE values) (1 / 100)
          5000).find? (fun q => decide (t2 ≤ q.1)) with
      | none =>
        exfalso
        have hmem := fptas_min_cover_mem (List.insertionSort valGE values) t2 (1 / 100) 5000
        have hno := List.find?_eq_none.mp hf2 _ hmem
        simp only [decide_eq_true_iff] at hno
        exact hno (by rw [hs2]; exact hr2)
      | some p2 =>
        have he1 : fptas_min_cover (List.insertionSort valGE values) t1 (1 / 100) 5000
            = p1 := fptas_min_cover_eq_found hf1
        have he2 : fptas_min_cover (List.insertionSort valGE values) t2 (1 / 100) 5000
            = p2 := fptas_min_cover_eq_found hf2
        have hp2mem := List.mem_of_find?_eq_some hf2
        have hp2t1 : t1 ≤ p2.1 := by
          have : t2 ≤ p2.1 := by simpa using List.find?_some hf2
          linarith
        have := find?_ge_min hsorted hf1 p2 hp2mem hp2t1
        rw [he1] at hs1
        rw [he2] at hs2
        rw [← hs1, ← hs2]
        exact this

theorem criar_juncao_sorted {groups : List (List ℚ)} {t taxa : ℚ}
    {emax : Option ℚ} {l : List Opcao} (htaxa : 0 ≤ taxa)
    (h : criar_juncao_sob_demanda groups t taxa emax = some l) :
    l.length ≤ 10 ∧ l.Sorted optLE ∧
      (l.map Opcao.credito_total).Sorted (fun a b => a ≤ b) := by
  unfold criar_juncao_sob_demanda at h
  rcases Option.map_eq_some'.mp h with ⟨l0, hl0, rfl⟩
  have hsorted : ((List.insertionSort optLE l0).take 10).Sorted optLE :=
    List.Pairwise.sublist (List.take_sublist _ _)
      (List.sorted_insertionSort optLE l0)
  refine ⟨List.length_take_le _ _, hsorted, ?_⟩
  have hshape : ∀ o ∈ (List.insertionSort optLE l0).take 10, OptShape taxa o := by
    intro o ho
    exact juncaoGroups_shape hl0 o
      ((List.perm_insertionSort optLE l0).mem_iff.mp
        ((List.take_sublist _ _).subset ho))
  rw [List.Sorted, List.pairwise_map]
  refine List.Pairwise.imp_of_mem ?_ hsorted
  intro a b ha hb hab
  exact optLE_credito htaxa (hshape a ha) (hshape b hb) hab

/-! Claim theorems. -/

/-- C1: for every entry list of positive values with at most 26 entries
and every target, the exact meet-in-the-middle solver returns an achieved
sum equal to the brute-force minimum, over all subsets (empty subset
included), of the subset sums that reach the target, and it reports the
no-cover sentinel exactly when the sum of the full entry list is below the
target. -/
theorem C1_exact_solver (values : List (ℚ × ℕ)) (t : ℚ)
    (hpos : ∀ p ∈ values, 0 < p.1) (hn : values.length ≤ 26) :
    (mitm_min_cover values t).1 = bruteMin values t ∧
      ((mitm_min_cover values t).1 = none ↔ sumVals values < t) :=
  ⟨mitm_eq_bruteMin hpos, mitm_eq_none_iff hpos⟩

/-- Witness for C1 at the concrete spec scenario: entries
10, 20, 30, 40 with target 50, where the solver achieves exactly 50. -/
theorem C1_exact_solver_witness :
    ((∀ p ∈ ([((10 : ℚ), 0), (20, 1), (30, 2), (40, 3)] : List (ℚ × ℕ)),
        0 < p.1) ∧
      ([((10 : ℚ), 0), (20, 1), (30, 2), (40, 3)] : List (ℚ × ℕ)).length ≤ 26) ∧
    ((mitm_min_cover [((10 : ℚ), 0), (20, 1), (30, 2), (40, 3)] 50).1 =
        bruteMin [((10 : ℚ), 0), (20, 1), (30, 2), (40, 3)] 50 ∧
      ((mitm_min_cover [((10 : ℚ), 0), (20, 1), (30, 2), (40, 3)] 50).1 = none ↔
        sumVals [((10 : ℚ), 0), (20, 1), (30, 2), (40, 3)] < 50)) :=
  ⟨⟨by with_unfolding_all decide, by decide⟩,
    C1_exact_solver [((10 : ℚ), 0), (20, 1), (30, 2), (40, 3)] 50
      (by with_unfolding_all decide) (by decide)⟩

/-- C2 counterexample: on the 27-entry list `cexVals` (approximate path,
total 103.024 well above the target 100.2) the subset 100 + 0.5 = 100.5
reaches the target, so the true minimum is at most 100.5, yet the solver
returns 102.5, which exceeds (1 + 0.01) times 100.5.  Hence the claimed
(1+epsilon) bound fails. -/
theorem C2_approx_bound_counterexample :
    26 < cexVals.length ∧
    (501 / 5 : ℚ) ≤ sumVals cexVals ∧
    (min_cover cexVals (501 / 5)).1 = some (205 / 2) ∧
    (501 / 5 : ℚ) ≤ 205 / 2 ∧
    ([((100 : ℚ), 0), (1 / 2, 2)]).Sublist cexVals ∧
    sumVals [((100 : ℚ), 0), (1 / 2, 2)] = 201 / 2 ∧
    (501 / 5 : ℚ) ≤ 201 / 2 ∧
    ¬ ((205 / 2 : ℚ) ≤ (1 + 1 / 100) * (201 / 2)) := by
  refine ⟨by decide, by with_unfolding_all decide, by with_unfolding_all decide,
    by with_unfolding_all decide, ?_, by with_unfolding_all decide,
    by with_unfolding_all decide, by with_unfolding_all decide⟩
  show ([((100 : ℚ), 0), (1 / 2, 2)]).Sublist
    (((100 : ℚ), 0) :: ((5 / 2 : ℚ), 1) :: ((1 / 2 : ℚ), 2) ::
      ((List.range 24).map fun i => ((1 / 1000 : ℚ), i + 3)))
  exact (((List.nil_sublist _).cons₂ _).cons _).cons₂ _

/-- C2 amended: on the approximate path, whenever the returned sum reaches
the target it is an exact subset sum of the input entries, hence at least
the true minimum cover; the (1+epsilon) multiplicative upper bound of the
original claim does not hold (see the counterexample). -/
theorem C2_approx_reachable_sound (values : List (ℚ × ℕ)) (t eps : ℚ)
    (m : ℕ) (hr : t ≤ (fptas_min_cover values t eps m).1) :
    (∃ c, c.Sublist values ∧
      fptas_min_cover values t eps m = (sumVals c, c.map Prod.snd)) ∧
    ∀ mo, bruteMin values t = some mo →
      mo ≤ (fptas_min_cover values t eps m).1 := by
  have hmem := fptas_min_cover_mem values t eps m
  rcases fptas_states_pairOf _ hmem with ⟨c, hc, hpr⟩
  refine ⟨⟨c, hc, hpr⟩, ?_⟩
  intro mo hmo
  obtain ⟨_, hlb⟩ := rat_min?_some (l := (subsetSums values).filter
    fun s => decide (t ≤ s)) hmo
  refine hlb _ (List.mem_filter.mpr ⟨?_, by simpa using hr⟩)
  exact mem_subsetSums.mpr ⟨c, hc, by rw [hpr]⟩

/-- Witness for the amended C2 on entries 3 and 2 with target 4: the
returned sum 5 reaches the target and is an exact subset sum. -/
theorem C2_approx_reachable_sound_witness :
    ((4 : ℚ) ≤ (fptas_min_cover [((3 : ℚ), 0), (2, 1)] 4 (1 / 100) 5000).1) ∧
    ((∃ c, c.Sublist ([((3 : ℚ), 0), (2, 1)] : List (ℚ × ℕ)) ∧
        fptas_min_cover [((3 : ℚ), 0), (2, 1)] 4 (1 / 100) 5000 =
          (sumVals c, c.map Prod.snd)) ∧
      ∀ mo, bruteMin [((3 : ℚ), 0), (2, 1)] 4 = some mo →
        mo ≤ (fptas_min_cover [((3 : ℚ), 0), (2, 1)] 4 (1 / 100) 5000).1) :=
  ⟨by with_unfolding_all decide,
    C2_approx_reachable_sound [((3 : ℚ), 0), (2, 1)] 4 (1 / 100) 5000
      (by with_unfolding_all decide)⟩

/-- C3 evidence: for a single group with entries 5 and 5 and target 100
(total below target), the grouped solve does not exclude the unreachable
group: the infinity sentinel defeats the ceiling check (`inf > inf` is
false) and `_build_option` is called on an empty subset, raising
`IndexError` (modelled by `none`); the exact solver itself returns the
sentinel with no chosen entries. -/
theorem C3_unreachable_group_exception :
    mitm_min_cover (grpValues [5, 5]) 100 = (none, []) ∧
    criar_juncao_sob_demanda [[5, 5]] 100 (7 / 100) (some (47 / 100)) = none := by
  exact ⟨by with_unfolding_all decide, by with_unfolding_all decide⟩

/-- C4 counterexample: the 27 unit-value group `g27` has total 27, below
the target 100, yet the approximate path returns the last frontier state
(27 with all entries) as an ordinary result with no unreachable marker,
and the grouped solve returns it as a usable option. -/
theorem C4_unreachable_counterexample :
    sumVals (grpValues g27) < 100 ∧
    26 < (grpValues g27).length ∧
    min_cover (grpValues g27) 100 = (some 27, List.range 27) ∧
    criar_juncao_sob_demanda [g27] 100 (7 / 100) (some (47 / 100)) =
      some [⟨189 / 100, 27, 27⟩] := by
  exact ⟨by with_unfolding_all decide, by decide,
    by with_unfolding_all decide, by with_unfolding_all decide⟩

/-- C4 amended: after all entries are processed the approximate solver
returns the first frontier state (ascending scan) with sum at least the
target, which is then the least frontier sum reaching the target; when no
frontier state reaches the target it returns the frontier's last (maximum)
state, whose sum is below the target, as an ordinary result with no
unreachable marker (the grouped caller then treats it as a usable cover,
see the counterexample). -/
theorem C4_approx_termination (values : List (ℚ × ℕ)) (t eps : ℚ) (m : ℕ) :
    (∀ p, (fptas_states values eps m).find? (fun q => decide (t ≤ q.1)) = some p →
      fptas_min_cover values t eps m = p ∧ t ≤ p.1 ∧
        ∀ x ∈ fptas_states values eps m, t ≤ x.1 → p.1 ≤ x.1) ∧
    ((fptas_states values eps m).find? (fun q => decide (t ≤ q.1)) = none →
      fptas_min_cover values t eps m = (fptas_states values eps m).getLastD (0, []) ∧
        (fptas_min_cover values t eps m).1 < t ∧
        ∀ x ∈ fptas_states values eps m, x.1 ≤ (fptas_min_cover values t eps m).1) := by
  have hsorted : (fptas_states values eps m).Sorted stLE :=
    (fptas_states_pairwise _ _ _).imp fun hab => le_of_lt hab
  constructor
  · intro p hp
    refine ⟨fptas_min_cover_eq_found hp, by simpa using List.find?_some hp,
      find?_ge_min hsorted hp⟩
  · intro hnone
    have heq := fptas_min_cover_eq_last hnone
    have hmem := fptas_min_cover_mem values t eps m
    have hno := List.find?_eq_none.mp hnone _ hmem
    simp only [decide_eq_true_iff, not_le] at hno
    refine ⟨heq, hno, ?_⟩
    intro x hx
    rw [heq]
    exact pairwise_le_getLastD (fptas_states_pairwise _ _ _) _ x hx

/-- Witness for the amended C4 on the single entry 3: with target 2 the
scan finds the state 3; with target 10 no state reaches the target and the
last frontier state 3 is returned as an ordinary result. -/
theorem C4_approx_termination_witness :
    fptas_min_cover [((3 : ℚ), 0)] 2 (1 / 100) 5000 = (3, [0]) ∧
    fptas_min_cover [((3 : ℚ), 0)] 10 (1 / 100) 5000 =
      (fptas_states [((3 : ℚ), 0)] (1 / 100) 5000).getLastD (0, []) ∧
    (fptas_min_cover [((3 : ℚ), 0)] 10 (1 / 100) 5000).1 < 10 :=
  ⟨((C4_approx_termination [((3 : ℚ), 0)] 2 (1 / 100) 5000).1 (3, [0])
      (by with_unfolding_all decide)).1,
    ((C4_approx_termination [((3 : ℚ), 0)] 10 (1 / 100) 5000).2
      (by with_unfolding_all decide)).1,
    ((C4_approx_termination [((3 : ℚ), 0)] 10 (1 / 100) 5000).2
      (by with_unfolding_all decide)).2.1⟩

/-- C5: every solver result treated as reachable (either path) chooses
pairwise distinct ids, all referring to entries of the input group, whose
values sum exactly to the achieved sum, which reaches the target. -/
theorem C5_subset_integrity (values : List (ℚ × ℕ)) (t s : ℚ) (ids : List ℕ)
    (hids : (values.map Prod.snd).Nodup)
    (h : min_cover values t = (some s, ids)) (hr : t ≤ s) :
    ids.Nodup ∧ (∀ i ∈ ids, i ∈ values.map Prod.snd) ∧ t ≤ s ∧
      ∃ c, c.Subperm values ∧ ids = c.map Prod.snd ∧ s = sumVals c := by
  obtain ⟨h1, h2, h3⟩ := min_cover_integrity hids h hr
  exact ⟨h1, h2, hr, h3⟩

/-- Witness for C5 on entries 10 and 20 with target 15: the solver picks
the entry 20 alone. -/
theorem C5_subset_integrity_witness :
    (([((10 : ℚ), 0), (20, 1)] : List (ℚ × ℕ)).map Prod.snd).Nodup ∧
    min_cover [((10 : ℚ), 0), (20, 1)] 15 = (some 20, [1]) ∧
    ((15 : ℚ) ≤ 20) ∧
    (([1] : List ℕ).Nodup ∧
      (∀ i ∈ ([1] : List ℕ),
        i ∈ ([((10 : ℚ), 0), (20, 1)] : List (ℚ × ℕ)).map Prod.snd) ∧
      (15 : ℚ) ≤ 20 ∧
      ∃ c, c.Subperm ([((10 : ℚ), 0), (20, 1)] : List (ℚ × ℕ)) ∧
        ([1] : List ℕ) = c.map Prod.snd ∧ (20 : ℚ) = sumVals c) :=
  ⟨by decide, by with_unfolding_all decide, by with_unfolding_all decide,
    C5_subset_integrity [((10 : ℚ), 0), (20, 1)] 15 20 [1] (by decide)
      (by with_unfolding_all decide) (by with_unfolding_all decide)⟩

/-- C6: for every entry list of positive values (either solver path) and
every target at most 0, the solver returns achieved sum 0 with no chosen
entries — the reachable empty cover. -/
theorem C6_nonpositive_target (values : List (ℚ × ℕ)) (t : ℚ)
    (hpos : ∀ p ∈ values, 0 < p.1) (ht : t ≤ 0) :
    min_cover values t = (some 0, []) :=
  min_cover_target_nonpos hpos ht

/-- Witness for C6 on both paths: the single entry 1 with target 0 (exact
path) and the 27 unit entries with target -1 (approximate path). -/
theorem C6_nonpositive_target_witness :
    min_cover [((1 : ℚ), 0)] 0 = (some 0, []) ∧
    min_cover (grpValues g27) (-1) = (some 0, []) :=
  ⟨C6_nonpositive_target [((1 : ℚ), 0)] 0 (by with_unfolding_all decide)
      (le_refl 0),
    C6_nonpositive_target (grpValues g27) (-1) (by with_unfolding_all decide)
      (by norm_num)⟩

/-- C7: for a fixed entry list of positive values and the fixed dispatched
solver, increasing the target never decreases the achieved sum when both
solves are reachable. -/
theorem C7_target_monotone (values : List (ℚ × ℕ)) (t1 t2 s1 s2 : ℚ)
    (ids1 ids2 : List ℕ) (hpos : ∀ p ∈ values, 0 < p.1) (h12 : t1 ≤ t2)
    (h1 : min_cover values t1 = (some s1, ids1)) (hr1 : t1 ≤ s1)
    (h2 : min_cover values t2 = (some s2, ids2)) (hr2 : t2 ≤ s2) :
    s1 ≤ s2 :=
  min_cover_monotone hpos h12 h1 hr1 h2 hr2

/-- Witness for C7 on entries 10 and 20 with targets 10 and 25: achieved
sums 10 and 30. -/
theorem C7_target_monotone_witness :
    min_cover [((10 : ℚ), 0), (20, 1)] 10 = (some 10, [0]) ∧
    min_cover [((10 : ℚ), 0), (20, 1)] 25 = (some 30, [0, 1]) ∧
    ((10 : ℚ) ≤ 30) :=
  ⟨by with_unfolding_all decide, by with_unfolding_all decide,
    C7_target_monotone [((10 : ℚ), 0), (20, 1)] 10 25 10 30 [0] [0, 1]
      (by with_unfolding_all decide) (by norm_num)
      (by with_unfolding_all decide) (by norm_num)
      (by with_unfolding_all decide) (by norm_num)⟩

/-- C8: the dispatcher routes to the exact solver exactly when the entry
list has at most 26 entries, and otherwise hands the descending-sorted
permutation of the entries to the approximate solver with the default
configuration; it applies no other transformation (it is a pure
function of its arguments). -/
theorem C8_dispatcher (values : List (ℚ × ℕ)) (t : ℚ) :
    (values.length ≤ 26 → min_cover values t = mitm_min_cover values t) ∧
      (26 < values.length →
        min_cover values t =
          (some (fptas_min_cover (List.insertionSort valGE values) t
              (1 / 100) 5000).1,
            (fptas_min_cover (List.insertionSort valGE values) t
              (1 / 100) 5000).2) ∧
          (List.insertionSort valGE values).Perm values ∧
          (List.insertionSort valGE values).Sorted valGE) := by
  constructor
  · intro h
    unfold min_cover
    rw [if_pos h]
  · intro h
    refine ⟨?_, List.perm_insertionSort valGE values,
      List.sorted_insertionSort valGE values⟩
    unfold min_cover
    rw [if_neg (not_le.mpr h)]

/-- Witness for C8: a 1-entry list routes to the exact solver and the
27-entry group routes to the approximate solver on its sorted entries. -/
theorem C8_dispatcher_witness :
    min_cover [((3 : ℚ), 0)] 2 = mitm_min_cover [((3 : ℚ), 0)] 2 ∧
    (min_cover (grpValues g27) 100 =
      (some (fptas_min_cover (List.insertionSort valGE (grpValues g27)) 100
          (1 / 100) 5000).1,
        (fptas_min_cover (List.insertionSort valGE (grpValues g27)) 100
          (1 / 100) 5000).2) ∧
      (List.insertionSort valGE (grpValues g27)).Perm (grpValues g27) ∧
      (List.insertionSort valGE (grpValues g27)).Sorted valGE) :=
  ⟨(C8_dispatcher [((3 : ℚ), 0)] 2).1 (by decide),
    (C8_dispatcher (grpValues g27) 100).2 (by decide)⟩

/-- C9: whenever the grouped solve returns normally, its result list is
sorted ascending by the reported achieved sum (ties resolved by the
deterministic (entrada, credito_total) sort key) and holds at most ten
results. -/
theorem C9_ranking (groups : List (List ℚ)) (t taxa : ℚ)
    (emax : Option ℚ) (l : List Opcao) (htaxa : 0 ≤ taxa)
    (h : criar_juncao_sob_demanda groups t taxa emax = some l) :
    l.length ≤ 10 ∧ l.Sorted optLE ∧
      (l.map Opcao.credito_total).Sorted (fun a b => a ≤ b) :=
  criar_juncao_sorted htaxa h

/-- Witness for C9 on two singleton groups with cartas 30 and 20 and
target 10: the result is sorted ascending (20 before 30). -/
theorem C9_ranking_witness :
    criar_juncao_sob_demanda [[30], [20]] 10 (7 / 100) (some (47 / 100)) =
      some [⟨7 / 5, 20, 1⟩, ⟨21 / 10, 30, 1⟩] ∧
    (([⟨7 / 5, 20, 1⟩, ⟨21 / 10, 30, 1⟩] : List Opcao).length ≤ 10 ∧
      ([⟨7 / 5, 20, 1⟩, ⟨21 / 10, 30, 1⟩] : List Opcao).Sorted optLE ∧
      (([⟨7 / 5, 20, 1⟩, ⟨21 / 10, 30, 1⟩] : List Opcao).map
        Opcao.credito_total).Sorted (fun a b => a ≤ b)) :=
  ⟨by with_unfolding_all decide,
    C9_ranking [[30], [20]] 10 (7 / 100) (some (47 / 100))
      [⟨7 / 5, 20, 1⟩, ⟨21 / 10, 30, 1⟩] (by norm_num)
      (by with_unfolding_all decide)⟩

/-- C10: for positive entries, after every per-entry update of the
approximate solver the frontier is non-empty, strictly ascending in sum,
and headed by the zero state, so the final ascending scan and the access
to the last frontier state are well defined; merge, trimming and the
subsampling cap each preserve this invariant. -/
theorem C10_frontier_invariant (values : List (ℚ × ℕ)) (eps : ℚ) (m k : ℕ)
    (hpos : ∀ p ∈ values, 0 < p.1) :
    ((values.take k).foldl (fptasStep eps m) [(0, [])]).head? = some (0, []) ∧
      ((values.take k).foldl (fptasStep eps m) [(0, [])]).Pairwise stLT ∧
      (values.take k).foldl (fptasStep eps m) [(0, [])] ≠ [] := by
  have hpos2 : ∀ p ∈ values.take k, (0 : ℚ) < p.1 := fun p hp =>
    hpos p ((List.take_sublist _ _).subset hp)
  obtain ⟨h1, h2⟩ := fold_fptas_inv hpos2 [(0, [])] rfl (by simp)
  exact ⟨h1, h2, fold_fptas_ne_nil _ _ _ _ (by simp)⟩

/-- Witness for C10 after both updates on the entries 2 and 1. -/
theorem C10_frontier_invariant_witness :
    (([((2 : ℚ), 0), (1, 1)].take 2).foldl (fptasStep (1 / 100) 5000)
        [(0, [])]).head? = some (0, []) ∧
      (([((2 : ℚ), 0), (1, 1)].take 2).foldl (fptasStep (1 / 100) 5000)
        [(0, [])]).Pairwise stLT ∧
      ([((2 : ℚ), 0), (1, 1)].take 2).foldl (fptasStep (1 / 100) 5000)
        [(0, [])] ≠ [] :=
  C10_frontier_invariant [((2 : ℚ), 0), (1, 1)] (1 / 100) 5000 2
    (by with_unfolding_all decide)

end PlanilhaProcessor
